import Mathlib

/-!
Formal model of the duplicate-detection engine of `duplicate_image_finder.py`
(repository kohkubo/duplicate_image_finder).

The engine consists of
  - `file_generator` (source lines 25-31): `os.walk` over the target directory
    filtered by `(Path(root) / file).suffix.lower() in SUPPORTED_IMAGE_EXTENSIONS`;
  - `find_duplicates` (source lines 34-72): an eager `is_dir` check, then a loop
    that hashes each candidate file in 65536-byte chunks with SHA-256, groups the
    paths by hex digest in an insertion-ordered dictionary, records per-file
    `OSError`s (the `logger.error` branch) and finally emits every bucket with
    more than one member.

The filesystem is modelled as a finite tree (`FSTree`): a node is a regular file
(with its byte content and a flag saying whether opening/reading it succeeds) or
a directory with a named list of entries.  Paths are lists of name components
relative to the scan root.  The cryptographic hash is an abstract parameter
`hash : Content → K`: SHA-256 itself is treated as an opaque collision-free
function, exactly as the specification assumes ("digest collision excluded by
assumption").  The chunked reading loop (`while chunk := f.read(65536)`) is
modelled explicitly by `readChunks`.  Python's insertion-ordered `dict` is
modelled as an association list to which new keys are appended at the end.
The `logger.error` event stream for failed files is modelled as the `errors`
component of the scan result, which is exactly the "per-file error records"
sequence the specification calls `ScanResult.errors`.
-/

set_option autoImplicit false

namespace DupFinder

/-- A filesystem path: the list of its name components below the scan root. -/
abbrev FilePath := List String

/-- The byte content of a file, one `Nat` per byte. -/
abbrev Content := List Nat

/-- Source line 14: `SUPPORTED_IMAGE_EXTENSIONS = (".jpg", ".jpeg", ".png", ".webp")`. -/
def SUPPORTED_IMAGE_EXTENSIONS : List String := [".jpg", ".jpeg", ".png", ".webp"]

/-- Source line 55: the fixed read size `f.read(65536)`. -/
def CHUNK_SIZE : Nat := 65536

/-- The characters strictly after the last dot of a name, or `none` when the
name contains no dot.  Helper for the `pathlib` suffix computation. -/
def afterLastDot : List Char → Option (List Char)
  | [] => none
  | c :: cs =>
    match afterLastDot cs with
    | some s => some s
    | none => if c = '.' then some cs else none

/-- `pathlib.PurePath.suffix` on a file name, as used on source line 30: with
`i = name.rfind(".")`, the suffix is `name[i:]` when `0 < i < len(name) - 1`
and the empty string otherwise.  When the last dot is followed by the final
`s.length` characters, `i = cs.length - 1 - s.length`, so `0 < i` is
`s.length + 1 < cs.length` and `i < len - 1` is `s ≠ []`. -/
def suffixChars (cs : List Char) : List Char :=
  match afterLastDot cs with
  | none => []
  | some s => if s.length + 1 < cs.length ∧ s ≠ [] then '.' :: s else []

/-- The `.suffix` of a file name, as a string. -/
def pathSuffix (name : String) : String :=
  String.mk (suffixChars name.toList)

/-- Python `.lower()` on a string: every character lowercased. -/
def lowerString (s : String) : String :=
  String.mk (s.toList.map Char.toLower)

/-- Source line 30: the traversal filter
`(Path(root) / file).suffix.lower() in SUPPORTED_IMAGE_EXTENSIONS`.
The suffix of `Path(root) / file` is the suffix of the final component. -/
def supportedName (name : String) : Bool :=
  SUPPORTED_IMAGE_EXTENSIONS.contains (lowerString (pathSuffix name))

/-- A filesystem state below some directory: a regular file carries its byte
content and whether opening and reading it succeeds (`readable = false` models
the `OSError` branch of source lines 64-66); a directory carries its named
entries in directory-listing order. -/
inductive FSTree where
  | file (content : Content) (readable : Bool) : FSTree
  | dir (entries : List (String × FSTree)) : FSTree

/-- One candidate produced by the traversal: the file path together with the
content and readability of the file node it denotes. -/
structure Candidate where
  path : FilePath
  content : Content
  readable : Bool
deriving DecidableEq, Repr

/-- The supported-extension files sitting directly in a directory listing,
in listing order: the part of one `os.walk` triple that `file_generator`
keeps for the current directory (source lines 26-30). -/
def filesOf (base : FilePath) (es : List (String × FSTree)) : List Candidate :=
  es.filterMap fun e =>
    match e with
    | (n, FSTree.file c ok) =>
      if supportedName n then some ⟨base ++ [n], c, ok⟩ else none
    | (_, FSTree.dir _) => none

mutual
/-- Source lines 25-31, `file_generator`: the flattened `os.walk` traversal.
`os.walk` is top-down: it yields the current directory's triple first (whose
file list `filesOf` filters), then recurses into each subdirectory in listing
order.  Walking a file node yields nothing (only directories are walked), and
directories themselves are never yielded. -/
def walkT (base : FilePath) : FSTree → List Candidate
  | FSTree.file _ _ => []
  | FSTree.dir es => filesOf base es ++ walkL base es

/-- The concatenation of the walks of the subdirectory entries of one
directory listing, in listing order. -/
def walkL (base : FilePath) : List (String × FSTree) → List Candidate
  | [] => []
  | (n, t) :: rest => walkT (base ++ [n]) t ++ walkL base rest
end

mutual
/-- Well-formedness of a filesystem state: in every directory the entry names
are pairwise distinct, as is true of every real directory listing. -/
def wfT : FSTree → Bool
  | FSTree.file _ _ => true
  | FSTree.dir es => decide ((es.map Prod.fst).Nodup) && wfL es

/-- Well-formedness of every tree in a directory listing. -/
def wfL : List (String × FSTree) → Bool
  | [] => true
  | (_, t) :: rest => wfT t && wfL rest
end

/-- The proposition that tree `t` contains, at directory path `ds` below its
root, an entry named `n` that is a regular file with content `c` and
readability `ok`.  This is the reference description of "a regular file
anywhere under the root", independent of the traversal code. -/
inductive HasFile : FSTree → List String → String → Content → Bool → Prop where
  | here {es : List (String × FSTree)} {n : String} {c : Content} {ok : Bool} :
      (n, FSTree.file c ok) ∈ es → HasFile (FSTree.dir es) [] n c ok
  | nest {es : List (String × FSTree)} {m : String} {t : FSTree}
      {ds : List String} {n : String} {c : Content} {ok : Bool} :
      (m, t) ∈ es → HasFile t ds n c ok → HasFile (FSTree.dir es) (m :: ds) n c ok

/-- Source line 55, `while chunk := f.read(65536)`: the successive non-empty
chunks returned by repeatedly reading `n` bytes from a file whose remaining
content is `content`.  `f.read(0)` returns an empty (falsy) chunk, so a zero
chunk size stops the loop immediately. -/
def readChunksGo (fuel : Nat) (n : Nat) (content : Content) : List Content :=
  match fuel with
  | 0 => []
  | fuel + 1 =>
    if content = [] ∨ n = 0 then []
    else content.take n :: readChunksGo fuel n (content.drop n)

/-- The chunks of the reading loop.  Each iteration consumes at least one
byte of the remaining content (for a positive read size), so `content.length`
bounds the number of iterations; the explicit fuel makes the recursion
structural. -/
def readChunks (n : Nat) (content : Content) : List Content :=
  readChunksGo content.length n content

/-- Source lines 53-57: the hasher absorbs each chunk in order
(`hasher.update(chunk)`) and the final digest is the hash of everything
absorbed, i.e. of the concatenation of the chunks. -/
def hexdigestOf {K : Type} (hash : Content → K) (content : Content) : K :=
  hash (readChunks CHUNK_SIZE content).flatten

/-- A digest bucket: the ordered list of paths that produced one digest. -/
abbrev Bucket := List FilePath

/-- Source line 59, `if file_hash in hash_dict` together with the lookup
`hash_dict[file_hash]`: the first bucket stored under key `h`, if any. -/
def dictFind {K : Type} [DecidableEq K] : List (K × Bucket) → K → Option Bucket
  | [], _ => none
  | kv :: rest, h => if kv.1 = h then some kv.2 else dictFind rest h

/-- Source lines 59-62: append the path to the existing bucket for the digest,
or append a fresh one-element bucket at the end of the dictionary (Python
dictionaries preserve key insertion order). -/
def dictInsert {K : Type} [DecidableEq K] (d : List (K × Bucket)) (h : K)
    (p : FilePath) : List (K × Bucket) :=
  match dictFind d h with
  | some _ => d.map fun kv => if kv.1 = h then (kv.1, kv.2 ++ [p]) else kv
  | none => d ++ [(h, [p])]

/-- Source lines 50-66, the body of `find_duplicates`' main loop over the
candidates: a readable file is hashed in chunks and recorded in the dictionary;
a file whose open or read raises `OSError` is reported (`logger.error`, here
the error list) and the loop continues with the next candidate. -/
def scanLoop {K : Type} [DecidableEq K] (hash : Content → K) :
    List Candidate → List (K × Bucket) × List FilePath →
    List (K × Bucket) × List FilePath
  | [], st => st
  | x :: rest, (d, errs) =>
    if x.readable then
      scanLoop hash rest (dictInsert d (hexdigestOf hash x.content) x.path, errs)
    else
      scanLoop hash rest (d, errs ++ [x.path])

/-- Source lines 68-71: keep, in dictionary order, exactly the buckets with
more than one member. -/
def finalize {K : Type} (d : List (K × Bucket)) : List Bucket :=
  (d.map Prod.snd).filter fun b => 1 < b.length

/-- The hard failure of source lines 44-45 (`raise ValueError(...)` when the
target is not a directory), which the specification's error taxonomy names
`InvalidRootError` / `NotADirectoryError`. -/
inductive ScanError where
  | invalidRoot
deriving DecidableEq

/-- The full observable output of one scan: the returned duplicate groups
(source line 72) together with the stream of per-file error records emitted by
the `logger.error` branch (source line 65), one path per failed file. -/
structure ScanResult where
  groups : List Bucket
  errors : List FilePath
deriving DecidableEq, Repr

/-- Source line 44, `target_dir.is_dir()`: `none` models a path that does not
exist, `some` a node sitting at the path. -/
def is_dir : Option FSTree → Bool
  | some (FSTree.dir _) => true
  | _ => false

/-- Source lines 34-72, `find_duplicates`: the eager directory check, then the
traversal feeding the hashing/grouping loop, then the size-filtered buckets.
The hash function is the abstract model of `hashlib.sha256`. -/
def find_duplicates {K : Type} [DecidableEq K] (hash : Content → K)
    (target : Option FSTree) : Except ScanError ScanResult :=
  match target with
  | some (FSTree.dir es) =>
    let st := scanLoop hash (walkT [] (FSTree.dir es)) ([], [])
    Except.ok ⟨finalize st.1, st.2⟩
  | _ => Except.error ScanError.invalidRoot

/-- Modelled from the spec (§4.3): the distinct elements of a list in
first-insertion order, as a Python dictionary keeps its keys. -/
def firstInsertionKeys {K : Type} [DecidableEq K] (l : List K) : List K :=
  l.foldl (fun acc h => if h ∈ acc then acc else acc ++ [h]) []

/-- Modelled from the spec (§4.2): the digests of the readable candidates, in
discovery order. -/
def scanDigests {K : Type} (hash : Content → K) (cands : List Candidate) : List K :=
  (cands.filter fun x => x.readable).map fun x => hexdigestOf hash x.content

/-- Modelled from the spec (§4.3): the bucket for digest `h` — the paths of
the readable candidates whose digest is `h`, in discovery order. -/
def bucketOf {K : Type} [DecidableEq K] (hash : Content → K) (h : K)
    (cands : List Candidate) : Bucket :=
  cands.filterMap fun x =>
    if x.readable = true ∧ hexdigestOf hash x.content = h then some x.path else none

/-- Modelled from the spec (§4.2, §7): the paths of the candidates whose open
or read fails, in discovery order. -/
def errorPaths (cands : List Candidate) : List FilePath :=
  cands.filterMap fun x => if x.readable then none else some x.path

/-- Modelled from the spec (§4.3, `finalize`): the buckets of the distinct
digests in first-insertion order, restricted to those with at least two
members. -/
def specGroups {K : Type} [DecidableEq K] (hash : Content → K)
    (cands : List Candidate) : List Bucket :=
  ((firstInsertionKeys (scanDigests hash cands)).map fun h =>
    bucketOf hash h cands).filter fun b => 1 < b.length

/-- The paths of the readable candidates whose content is exactly `c`, in
discovery order. -/
def readablePathsWithContent (c : Content) (cands : List Candidate) : Bucket :=
  cands.filterMap fun x =>
    if x.readable = true ∧ x.content = c then some x.path else none

/-- A small concrete filesystem used to instantiate the theorems: two
readable images with identical content at different depths, one readable
image with distinct content, one unreadable image, and one non-image file. -/
def sampleTree : List (String × FSTree) :=
  [("a.jpg", FSTree.file [1] true),
   ("sub", FSTree.dir [("b.png", FSTree.file [1] true),
                       ("c.txt", FSTree.file [1] true)]),
   ("c.jpg", FSTree.file [2] true),
   ("bad.png", FSTree.file [9] false)]

/-! ## Basic facts about the traversal -/

theorem sizeOf_snd_lt_dir {es : List (String × FSTree)} {p : String × FSTree}
    (hp : p ∈ es) : sizeOf p.2 < sizeOf (FSTree.dir es) := by
  obtain ⟨a, b⟩ := p
  induction es with
  | nil => cases hp
  | cons q rest ih =>
    obtain ⟨a1, b1⟩ := q
    rcases List.mem_cons.mp hp with h | h
    · rw [Prod.mk.injEq] at h
      obtain ⟨h1, h2⟩ := h
      subst h1; subst h2
      simp; omega
    · have := ih h
      simp at this ⊢
      omega

/-- Induction over the filesystem tree: to prove a property of every tree it
suffices to prove it for files and, for directories, assuming it for every
entry of the listing. -/
theorem FSTree.inductMem (motive : FSTree → Prop)
    (hfile : ∀ c ok, motive (FSTree.file c ok))
    (hdir : ∀ es, (∀ p, p ∈ es → motive p.2) → motive (FSTree.dir es)) :
    ∀ t, motive t
  | FSTree.file c ok => hfile c ok
  | FSTree.dir es =>
    hdir es fun p hp => FSTree.inductMem motive hfile hdir p.2
termination_by t => sizeOf t
decreasing_by exact sizeOf_snd_lt_dir hp

theorem walkT_file (base : FilePath) (c : Content) (ok : Bool) :
    walkT base (FSTree.file c ok) = [] := by
  simp [walkT]

theorem walkT_dir (base : FilePath) (es : List (String × FSTree)) :
    walkT base (FSTree.dir es) = filesOf base es ++ walkL base es := by
  simp [walkT]

theorem walkL_nil (base : FilePath) : walkL base [] = [] := by
  simp [walkL]

theorem walkL_cons (base : FilePath) (n : String) (t : FSTree)
    (rest : List (String × FSTree)) :
    walkL base ((n, t) :: rest) = walkT (base ++ [n]) t ++ walkL base rest := by
  simp [walkL]

theorem mem_filesOf {base : FilePath} {es : List (String × FSTree)}
    {x : Candidate} :
    x ∈ filesOf base es ↔
      ∃ n c ok, (n, FSTree.file c ok) ∈ es ∧ supportedName n = true ∧
        x = ⟨base ++ [n], c, ok⟩ := by
  unfold filesOf
  rw [List.mem_filterMap]
  constructor
  · rintro ⟨⟨n, tn⟩, he, hf⟩
    cases tn with
    | file c ok =>
      by_cases hs : supportedName n
      · refine ⟨n, c, ok, he, hs, ?_⟩
        simp only [hs, if_true] at hf
        exact (Option.some.injEq _ _ ▸ hf).symm
      · simp [hs] at hf
    | dir es2 => simp at hf
  · rintro ⟨n, c, ok, he, hs, rfl⟩
    exact ⟨(n, FSTree.file c ok), he, by simp [hs]⟩

theorem mem_walkL {base : FilePath} {es : List (String × FSTree)}
    {x : Candidate} :
    x ∈ walkL base es ↔ ∃ n t, (n, t) ∈ es ∧ x ∈ walkT (base ++ [n]) t := by
  induction es with
  | nil => simp [walkL_nil]
  | cons e rest ih =>
    obtain ⟨n, t⟩ := e
    rw [walkL_cons, List.mem_append, ih]
    constructor
    · rintro (hx | ⟨m, t2, hm, hx⟩)
      · exact ⟨n, t, List.mem_cons_self _ _, hx⟩
      · exact ⟨m, t2, List.mem_cons_of_mem _ hm, hx⟩
    · rintro ⟨m, t2, hm, hx⟩
      rcases List.mem_cons.mp hm with h | h
      · rw [Prod.mk.injEq] at h
        obtain ⟨h1, h2⟩ := h
        subst h1; subst h2
        exact Or.inl hx
      · exact Or.inr ⟨m, t2, h, hx⟩

/-- The traversal yields exactly the supported-extension regular files of the
subtree, each at its path below the walk base. -/
theorem mem_walkT : ∀ (t : FSTree) (base : FilePath) (x : Candidate),
    x ∈ walkT base t ↔
      ∃ ds n, x.path = base ++ ds ++ [n] ∧
        HasFile t ds n x.content x.readable ∧ supportedName n = true := by
  intro t
  induction t using FSTree.inductMem with
  | hfile c ok =>
    intro base x
    rw [walkT_file]
    simp only [List.not_mem_nil, false_iff]
    rintro ⟨ds, n, hp, hf, hs⟩
    cases hf
  | hdir es ih =>
    intro base x
    rw [walkT_dir, List.mem_append, mem_filesOf, mem_walkL]
    constructor
    · rintro (⟨n, c, ok, he, hs, rfl⟩ | ⟨m, t2, hm, hx⟩)
      · exact ⟨[], n, by simp, HasFile.here he, hs⟩
      · obtain ⟨ds, n, hp, hf, hs⟩ := (ih (m, t2) hm (base ++ [m]) x).mp hx
        refine ⟨m :: ds, n, ?_, HasFile.nest hm hf, hs⟩
        rw [hp]; simp
    · rintro ⟨ds, n, hp, hf, hs⟩
      cases hf with
      | here he =>
        left
        obtain ⟨xp, xc, xr⟩ := x
        simp only [List.append_nil] at hp
        exact ⟨n, xc, xr, he, hs, by simp at hp ⊢; exact hp⟩
      | nest hm hf2 =>
        right
        rename_i m t2 ds2
        exact ⟨m, t2, hm, (ih (m, t2) hm (base ++ [m]) x).mpr
          ⟨ds2, n, by rw [hp]; simp, hf2, hs⟩⟩

/-! ## The chunked digest computation -/

/-- Reading a file in non-empty chunks and absorbing them in order feeds the
hasher exactly the file's full content. -/
theorem flatten_readChunksGo (n : Nat) (hn : 0 < n) :
    ∀ (fuel : Nat) (c : Content), c.length ≤ fuel →
      (readChunksGo fuel n c).flatten = c := by
  intro fuel
  induction fuel with
  | zero =>
    intro c hc
    have hnil : c = [] := by
      cases c with
      | nil => rfl
      | cons a l => simp at hc
    subst hnil
    rfl
  | succ k ih =>
    intro c hc
    show (if c = [] ∨ n = 0 then []
      else c.take n :: readChunksGo k n (c.drop n)).flatten = c
    split
    · rename_i h
      rcases h with h | h
      · simp [h]
      · omega
    · rename_i h
      push_neg at h
      have hpos : 0 < c.length := List.length_pos.mpr h.1
      have hlen : (c.drop n).length ≤ k := by
        simp only [List.length_drop]
        omega
      rw [List.flatten_cons, ih (c.drop n) hlen]
      exact List.take_append_drop n c

theorem flatten_readChunks (n : Nat) (hn : 0 < n) (content : Content) :
    (readChunks n content).flatten = content :=
  flatten_readChunksGo n hn content.length content le_rfl

/-- The digest of the chunked reading loop is the hash of the whole content. -/
theorem hexdigestOf_eq {K : Type} (hash : Content → K) (content : Content) :
    hexdigestOf hash content = hash content := by
  unfold hexdigestOf
  rw [flatten_readChunks CHUNK_SIZE (by decide) content]

/-! ## Characterization of the hashing and grouping loop -/

section ScanLemmas

variable {K : Type} [DecidableEq K] (hash : Content → K)

theorem scanLoop_nil (st : List (K × Bucket) × List FilePath) :
    scanLoop hash [] st = st := rfl

theorem scanLoop_cons (x : Candidate) (rest : List Candidate)
    (st : List (K × Bucket) × List FilePath) :
    scanLoop hash (x :: rest) st =
      if x.readable then
        scanLoop hash rest (dictInsert st.1 (hexdigestOf hash x.content) x.path, st.2)
      else
        scanLoop hash rest (st.1, st.2 ++ [x.path]) := by
  obtain ⟨d, e⟩ := st
  rfl

theorem scanLoop_append (a b : List Candidate)
    (st : List (K × Bucket) × List FilePath) :
    scanLoop hash (a ++ b) st = scanLoop hash b (scanLoop hash a st) := by
  induction a generalizing st with
  | nil => rw [List.nil_append, scanLoop_nil]
  | cons x rest ih =>
    rw [List.cons_append, scanLoop_cons, scanLoop_cons]
    by_cases hx : x.readable
    · rw [if_pos hx, if_pos hx, ih]
    · rw [if_neg hx, if_neg hx, ih]

theorem scanLoop_errors (cands : List Candidate) :
    ∀ (d : List (K × Bucket)) (e : List FilePath),
      (scanLoop hash cands (d, e)).2 = e ++ errorPaths cands := by
  induction cands with
  | nil =>
    intro d e
    rw [scanLoop_nil]
    simp [errorPaths]
  | cons x rest ih =>
    intro d e
    rw [scanLoop_cons]
    by_cases hx : x.readable
    · rw [if_pos hx, ih]
      simp [errorPaths, List.filterMap_cons, hx]
    · rw [if_neg hx, ih]
      simp [errorPaths, List.filterMap_cons, hx]

theorem foldl_firstInsertion_mem (a : K) : ∀ (l acc : List K),
    (a ∈ l.foldl (fun acc h => if h ∈ acc then acc else acc ++ [h]) acc ↔
      a ∈ acc ∨ a ∈ l) := by
  intro l
  induction l with
  | nil => intro acc; simp
  | cons b rest ih =>
    intro acc
    rw [List.foldl_cons, ih]
    by_cases hb : b ∈ acc
    · rw [if_pos hb]
      constructor
      · rintro (h | h)
        · exact Or.inl h
        · exact Or.inr (List.mem_cons_of_mem _ h)
      · rintro (h | h)
        · exact Or.inl h
        · rcases List.mem_cons.mp h with h | h
          · subst h; exact Or.inl hb
          · exact Or.inr h
    · rw [if_neg hb]
      simp only [List.mem_append, List.mem_singleton, List.mem_cons]
      tauto

theorem mem_firstInsertionKeys (a : K) (l : List K) :
    a ∈ firstInsertionKeys l ↔ a ∈ l := by
  unfold firstInsertionKeys
  rw [foldl_firstInsertion_mem]
  simp

theorem foldl_firstInsertion_nodup : ∀ (l acc : List K),
    acc.Nodup → (l.foldl (fun acc h => if h ∈ acc then acc else acc ++ [h]) acc).Nodup := by
  intro l
  induction l with
  | nil => intro acc h; exact h
  | cons b rest ih =>
    intro acc hacc
    rw [List.foldl_cons]
    by_cases hb : b ∈ acc
    · rw [if_pos hb]; exact ih acc hacc
    · rw [if_neg hb]
      refine ih _ (List.nodup_append.mpr ⟨hacc, List.nodup_singleton b, ?_⟩)
      intro y hy hy1
      rw [List.mem_singleton] at hy1
      subst hy1
      exact hb hy

theorem nodup_firstInsertionKeys (l : List K) : (firstInsertionKeys l).Nodup :=
  foldl_firstInsertion_nodup l [] List.nodup_nil

theorem firstInsertionKeys_append (l : List K) (h : K) :
    firstInsertionKeys (l ++ [h]) =
      if h ∈ firstInsertionKeys l then firstInsertionKeys l
      else firstInsertionKeys l ++ [h] := by
  unfold firstInsertionKeys
  rw [List.foldl_append, List.foldl_cons, List.foldl_nil]

theorem scanDigests_append (cands : List Candidate) (x : Candidate) :
    scanDigests hash (cands ++ [x]) =
      scanDigests hash cands ++
        (if x.readable then [hexdigestOf hash x.content] else []) := by
  unfold scanDigests
  rw [List.filter_append, List.map_append]
  congr 1
  by_cases hx : x.readable <;> simp [hx]

theorem bucketOf_append (h : K) (cands : List Candidate) (x : Candidate) :
    bucketOf hash h (cands ++ [x]) =
      bucketOf hash h cands ++
        (if x.readable = true ∧ hexdigestOf hash x.content = h then [x.path]
         else []) := by
  unfold bucketOf
  rw [List.filterMap_append]
  congr 1
  by_cases hc : x.readable = true ∧ hexdigestOf hash x.content = h <;> simp [hc]

theorem mem_scanDigests (h : K) (cands : List Candidate) :
    h ∈ scanDigests hash cands ↔
      ∃ x, x ∈ cands ∧ x.readable = true ∧ hexdigestOf hash x.content = h := by
  unfold scanDigests
  rw [List.mem_map]
  constructor
  · rintro ⟨x, hx, hh⟩
    rw [List.mem_filter] at hx
    exact ⟨x, hx.1, hx.2, hh⟩
  · rintro ⟨x, hx, hr, hh⟩
    exact ⟨x, List.mem_filter.mpr ⟨hx, hr⟩, hh⟩

theorem bucketOf_eq_nil (h : K) (cands : List Candidate)
    (hh : h ∉ scanDigests hash cands) : bucketOf hash h cands = [] := by
  unfold bucketOf
  rw [List.filterMap_eq_nil_iff]
  intro x hx
  by_cases hc : x.readable = true ∧ hexdigestOf hash x.content = h
  · exact absurd ((mem_scanDigests hash h cands).mpr ⟨x, hx, hc.1, hc.2⟩) hh
  · simp [hc]

theorem dictFind_map (keys : List K) (f : K → Bucket) (h : K) :
    dictFind (keys.map fun k => (k, f k)) h =
      if h ∈ keys then some (f h) else none := by
  induction keys with
  | nil => simp [dictFind]
  | cons k rest ih =>
    rw [List.map_cons]
    by_cases hk : k = h
    · subst hk
      simp [dictFind]
    · rw [show dictFind ((k, f k) :: rest.map fun k => (k, f k)) h =
            dictFind (rest.map fun k => (k, f k)) h from by
          simp [dictFind, hk], ih]
      by_cases hr : h ∈ rest <;> simp [hr, List.mem_cons, hk, Ne.symm hk]

theorem dictInsert_found (d : List (K × Bucket)) (h : K) (p : FilePath)
    (b : Bucket) (hf : dictFind d h = some b) :
    dictInsert d h p = d.map fun kv => if kv.1 = h then (kv.1, kv.2 ++ [p]) else kv := by
  unfold dictInsert
  rw [hf]

theorem dictInsert_new (d : List (K × Bucket)) (h : K) (p : FilePath)
    (hf : dictFind d h = none) :
    dictInsert d h p = d ++ [(h, [p])] := by
  unfold dictInsert
  rw [hf]

/-- The grouping dictionary after the whole loop: one entry per distinct
digest of a readable candidate, in first-insertion order, each holding the
paths of the candidates with that digest in discovery order. -/
theorem scanDict_eq (cands : List Candidate) :
    (scanLoop hash cands ([], [])).1 =
      (firstInsertionKeys (scanDigests hash cands)).map
        fun h => (h, bucketOf hash h cands) := by
  induction cands using List.reverseRecOn with
  | nil =>
    rw [scanLoop_nil]
    simp [scanDigests, firstInsertionKeys]
  | append_singleton cands x ih =>
    rw [scanLoop_append, scanLoop_cons, scanDigests_append]
    by_cases hx : x.readable
    · rw [if_pos hx, if_pos hx, scanLoop_nil, firstInsertionKeys_append]
      dsimp only
      by_cases hmem : hexdigestOf hash x.content ∈ firstInsertionKeys (scanDigests hash cands)
      · rw [if_pos hmem, ih,
          dictInsert_found _ _ _ (bucketOf hash (hexdigestOf hash x.content) cands)
            (by rw [dictFind_map, if_pos hmem]),
          List.map_map]
        apply List.map_congr_left
        intro k hk
        by_cases hkh : k = hexdigestOf hash x.content
        · subst hkh
          simp [bucketOf_append, hx]
        · simp only [Function.comp_apply, bucketOf_append]
          rw [if_neg hkh,
            if_neg (fun hc : x.readable = true ∧ hexdigestOf hash x.content = k =>
              hkh hc.2.symm),
            List.append_nil]
      · rw [if_neg hmem, ih,
          dictInsert_new _ _ _ (by rw [dictFind_map, if_neg hmem]),
          List.map_append, List.map_singleton]
        congr 1
        · apply List.map_congr_left
          intro k hk
          rw [bucketOf_append]
          rw [if_neg (fun hc : x.readable = true ∧ hexdigestOf hash x.content = k =>
              hmem (hc.2 ▸ hk)),
            List.append_nil]
        · rw [bucketOf_append, if_pos ⟨hx, rfl⟩,
            bucketOf_eq_nil hash _ cands
              (fun hc => hmem ((mem_firstInsertionKeys _ _).mpr hc)),
            List.nil_append]
    · rw [if_neg hx, if_neg hx, scanLoop_nil, List.append_nil]
      dsimp only
      rw [ih]
      apply List.map_congr_left
      intro k hk
      rw [bucketOf_append,
        if_neg (fun hc : x.readable = true ∧ hexdigestOf hash x.content = k =>
          hx hc.1),
        List.append_nil]

theorem finalize_map (keys : List K) (f : K → Bucket) :
    finalize (keys.map fun k => (k, f k)) =
      (keys.map f).filter fun b => 1 < b.length := by
  unfold finalize
  rw [List.map_map]
  rfl

/-- The scan of any directory root succeeds and returns exactly the
specification-side groups and error-path sequence of its traversal. -/
theorem find_duplicates_dir (es : List (String × FSTree)) :
    find_duplicates hash (some (FSTree.dir es)) =
      Except.ok ⟨specGroups hash (walkT [] (FSTree.dir es)),
        errorPaths (walkT [] (FSTree.dir es))⟩ := by
  have hstep : find_duplicates hash (some (FSTree.dir es)) =
      Except.ok ⟨finalize (scanLoop hash (walkT [] (FSTree.dir es)) ([], [])).1,
        (scanLoop hash (walkT [] (FSTree.dir es)) ([], [])).2⟩ := rfl
  rw [hstep, scanDict_eq, finalize_map, scanLoop_errors, List.nil_append]
  rfl

theorem find_duplicates_not_dir (target : Option FSTree)
    (h : is_dir target = false) :
    find_duplicates hash target = Except.error ScanError.invalidRoot := by
  match target with
  | none => rfl
  | some (FSTree.file c ok) => rfl
  | some (FSTree.dir es) => simp [is_dir] at h

theorem mem_bucketOf {h : K} {p : FilePath} {cands : List Candidate} :
    p ∈ bucketOf hash h cands ↔
      ∃ x, x ∈ cands ∧ x.readable = true ∧ hexdigestOf hash x.content = h ∧
        x.path = p := by
  unfold bucketOf
  rw [List.mem_filterMap]
  constructor
  · rintro ⟨x, hx, hxe⟩
    by_cases hc : x.readable = true ∧ hexdigestOf hash x.content = h
    · rw [if_pos hc] at hxe
      exact ⟨x, hx, hc.1, hc.2, Option.some.inj hxe⟩
    · rw [if_neg hc] at hxe
      cases hxe
  · rintro ⟨x, hx, h1, h2, h3⟩
    exact ⟨x, hx, by rw [if_pos ⟨h1, h2⟩, h3]⟩

theorem mem_specGroups {g : Bucket} {cands : List Candidate} :
    g ∈ specGroups hash cands ↔
      ∃ h, h ∈ firstInsertionKeys (scanDigests hash cands) ∧
        g = bucketOf hash h cands ∧ 1 < g.length := by
  unfold specGroups
  rw [List.mem_filter, List.mem_map]
  constructor
  · rintro ⟨⟨h, hh, rfl⟩, hlen⟩
    exact ⟨h, hh, rfl, by simpa using hlen⟩
  · rintro ⟨h, hh, rfl, hlen⟩
    exact ⟨⟨h, hh, rfl⟩, by simpa using hlen⟩

theorem bucketOf_eq_map_filter (h : K) (cands : List Candidate) :
    bucketOf hash h cands =
      ((cands.filter fun x =>
        decide (x.readable = true ∧ hexdigestOf hash x.content = h)).map
          Candidate.path) := by
  unfold bucketOf
  induction cands with
  | nil => rfl
  | cons x rest ih =>
    by_cases hc : x.readable = true ∧ hexdigestOf hash x.content = h
    · simp [List.filterMap_cons, List.filter_cons, hc, ih]
    · simp [List.filterMap_cons, List.filter_cons, hc, ih]

theorem errorPaths_eq_map_filter (cands : List Candidate) :
    errorPaths cands = (cands.filter fun x => !x.readable).map Candidate.path := by
  unfold errorPaths
  induction cands with
  | nil => rfl
  | cons x rest ih =>
    rw [List.filterMap_cons, List.filter_cons]
    by_cases hx : x.readable
    · simp [hx, ih]
    · simp [hx, ih]

theorem nodup_bucketOf {h : K} {cands : List Candidate}
    (hn : (cands.map Candidate.path).Nodup) : (bucketOf hash h cands).Nodup := by
  rw [bucketOf_eq_map_filter]
  exact ((List.filter_sublist cands).map Candidate.path).nodup hn

theorem nodup_errorPaths {cands : List Candidate}
    (hn : (cands.map Candidate.path).Nodup) : (errorPaths cands).Nodup := by
  rw [errorPaths_eq_map_filter]
  exact ((List.filter_sublist cands).map Candidate.path).nodup hn

theorem mem_errorPaths {p : FilePath} {cands : List Candidate} :
    p ∈ errorPaths cands ↔
      ∃ x, x ∈ cands ∧ x.readable = false ∧ x.path = p := by
  unfold errorPaths
  rw [List.mem_filterMap]
  constructor
  · rintro ⟨x, hx, hxe⟩
    by_cases hr : x.readable
    · rw [if_pos hr] at hxe
      cases hxe
    · rw [if_neg hr] at hxe
      exact ⟨x, hx, Bool.eq_false_iff.mpr hr, Option.some.inj hxe⟩
  · rintro ⟨x, hx, h1, h2⟩
    refine ⟨x, hx, ?_⟩
    rw [if_neg (by simp [h1]), h2]

theorem bucketOf_disjoint {cands : List Candidate}
    (hn : (cands.map Candidate.path).Nodup) {h1 h2 : K} (hne : h1 ≠ h2)
    {p : FilePath} (hp1 : p ∈ bucketOf hash h1 cands)
    (hp2 : p ∈ bucketOf hash h2 cands) : False := by
  obtain ⟨x, hx, hxr, hxd, hxp⟩ := (mem_bucketOf hash).mp hp1
  obtain ⟨y, hy, hyr, hyd, hyp⟩ := (mem_bucketOf hash).mp hp2
  have hxy : x = y :=
    List.inj_on_of_nodup_map hn hx hy (hxp.trans hyp.symm)
  subst hxy
  exact hne (hxd ▸ hyd ▸ rfl)

theorem readablePathsWithContent_eq_bucketOf {c : Content}
    {cands : List Candidate} (hinj : Function.Injective hash) :
    readablePathsWithContent c cands =
      bucketOf hash (hexdigestOf hash c) cands := by
  unfold readablePathsWithContent bucketOf
  apply List.filterMap_congr
  intro x hx
  simp only [hexdigestOf_eq, hinj.eq_iff]

end ScanLemmas

/-! ## Distinctness of the traversal paths of a well-formed tree -/

theorem wfL_spec {es : List (String × FSTree)} (h : wfL es = true) :
    ∀ p ∈ es, wfT p.2 = true := by
  induction es with
  | nil =>
    intro p hp
    cases hp
  | cons q rest ih =>
    obtain ⟨n, t⟩ := q
    rw [show wfL ((n, t) :: rest) = (wfT t && wfL rest) from by simp [wfL],
      Bool.and_eq_true] at h
    intro p hp
    rcases List.mem_cons.mp hp with h1 | h1
    · subst h1
      exact h.1
    · exact ih h.2 p h1

theorem wfT_dir {es : List (String × FSTree)} (h : wfT (FSTree.dir es) = true) :
    (es.map Prod.fst).Nodup ∧ wfL es = true := by
  rw [show wfT (FSTree.dir es) = (decide ((es.map Prod.fst).Nodup) && wfL es)
      from by simp [wfT],
    Bool.and_eq_true, decide_eq_true_iff] at h
  exact h

theorem nodup_filesOf_paths {base : FilePath} {es : List (String × FSTree)}
    (hn : (es.map Prod.fst).Nodup) :
    ((filesOf base es).map Candidate.path).Nodup := by
  induction es with
  | nil => simp [filesOf]
  | cons e rest ih =>
    obtain ⟨n, t⟩ := e
    rw [List.map_cons, List.nodup_cons] at hn
    obtain ⟨hn1, hn2⟩ := hn
    cases t with
    | dir es2 =>
      rw [show filesOf base ((n, FSTree.dir es2) :: rest) = filesOf base rest
          from by simp [filesOf, List.filterMap_cons]]
      exact ih hn2
    | file c ok =>
      by_cases hs : supportedName n
      · rw [show filesOf base ((n, FSTree.file c ok) :: rest) =
            (⟨base ++ [n], c, ok⟩ : Candidate) :: filesOf base rest
            from by simp [filesOf, List.filterMap_cons, hs]]
        rw [List.map_cons, List.nodup_cons]
        refine ⟨?_, ih hn2⟩
        intro hmem
        obtain ⟨y, hy, hyp⟩ := List.mem_map.mp hmem
        obtain ⟨n2, c2, ok2, he2, hs2, rfl⟩ := mem_filesOf.mp hy
        have hn2n : n2 = n := by simpa using hyp
        subst hn2n
        exact hn1 (List.mem_map.mpr ⟨(n2, FSTree.file c2 ok2), he2, rfl⟩)
      · rw [show filesOf base ((n, FSTree.file c ok) :: rest) = filesOf base rest
            from by simp [filesOf, List.filterMap_cons, hs]]
        exact ih hn2

theorem nodup_walkL_paths {base : FilePath} {es : List (String × FSTree)}
    (ihs : ∀ p ∈ es, ∀ b, wfT p.2 = true → ((walkT b p.2).map Candidate.path).Nodup)
    (hn : (es.map Prod.fst).Nodup) (hw : ∀ p ∈ es, wfT p.2 = true) :
    ((walkL base es).map Candidate.path).Nodup := by
  induction es with
  | nil => simp [walkL_nil]
  | cons e rest ih =>
    obtain ⟨n, t⟩ := e
    rw [List.map_cons, List.nodup_cons] at hn
    obtain ⟨hn1, hn2⟩ := hn
    rw [walkL_cons, List.map_append, List.nodup_append]
    refine ⟨ihs (n, t) (List.mem_cons_self _ _) (base ++ [n])
        (hw _ (List.mem_cons_self _ _)),
      ih (fun p hp b hwp => ihs p (List.mem_cons_of_mem _ hp) b hwp) hn2
        (fun p hp => hw p (List.mem_cons_of_mem _ hp)), ?_⟩
    intro p hp1 hp2
    obtain ⟨x, hx, rfl⟩ := List.mem_map.mp hp1
    obtain ⟨ds, m0, hpath, _, _⟩ := (mem_walkT _ _ _).mp hx
    obtain ⟨y, hy, hyp⟩ := List.mem_map.mp hp2
    obtain ⟨n2, t2, ht2, hy2⟩ := mem_walkL.mp hy
    obtain ⟨ds2, m2, hpath2, _, _⟩ := (mem_walkT _ _ _).mp hy2
    have heq : (base ++ [n]) ++ (ds ++ [m0]) = (base ++ [n2]) ++ (ds2 ++ [m2]) := by
      rw [← List.append_assoc, ← List.append_assoc, ← hpath, ← hpath2, hyp]
    have hlen : (base ++ [n]).length = (base ++ [n2]).length := by
      simp
    have hpre := (List.append_inj heq hlen).1
    have hnn2 : n = n2 := by
      have := List.append_cancel_left hpre
      simpa using this
    subst hnn2
    exact hn1 (List.mem_map.mpr ⟨(n, t2), ht2, rfl⟩)

/-- In a well-formed tree the traversal visits pairwise distinct paths. -/
theorem nodup_walkT_paths : ∀ (t : FSTree) (base : FilePath), wfT t = true →
    ((walkT base t).map Candidate.path).Nodup := by
  intro t
  induction t using FSTree.inductMem with
  | hfile c ok =>
    intro base h
    simp [walkT_file]
  | hdir es ih =>
    intro base h
    obtain ⟨hnames, hwl⟩ := wfT_dir h
    rw [walkT_dir, List.map_append, List.nodup_append]
    refine ⟨nodup_filesOf_paths hnames,
      nodup_walkL_paths ih hnames (wfL_spec hwl), ?_⟩
    intro p hp1 hp2
    obtain ⟨x, hx, rfl⟩ := List.mem_map.mp hp1
    obtain ⟨n, c, ok, he, hs, rfl⟩ := mem_filesOf.mp hx
    obtain ⟨y, hy, hyp⟩ := List.mem_map.mp hp2
    obtain ⟨n2, t2, ht2, hy2⟩ := mem_walkL.mp hy
    obtain ⟨ds2, m2, hpath2, _, _⟩ := (mem_walkT _ _ _).mp hy2
    have hlen := congrArg List.length hyp
    rw [hpath2] at hlen
    simp [List.length_append] at hlen

/-! ## Dictionary lookup and further structure of the groups -/

section MoreLemmas

variable {K : Type} [DecidableEq K] (hash : Content → K)

theorem dictFind_cons (kv : K × Bucket) (rest : List (K × Bucket)) (h : K) :
    dictFind (kv :: rest) h = if kv.1 = h then some kv.2 else dictFind rest h := rfl

theorem dictFind_append_of_none (d1 d2 : List (K × Bucket)) (h : K)
    (hnone : dictFind d1 h = none) :
    dictFind (d1 ++ d2) h = dictFind d2 h := by
  induction d1 with
  | nil => rfl
  | cons kv rest ih =>
    rw [dictFind_cons] at hnone
    by_cases hk : kv.1 = h
    · rw [if_pos hk] at hnone
      cases hnone
    · rw [if_neg hk] at hnone
      rw [List.cons_append, dictFind_cons, if_neg hk]
      exact ih hnone

theorem dictFind_map_update (d : List (K × Bucket)) (h : K) (p : FilePath)
    (b : Bucket) (hf : dictFind d h = some b) :
    dictFind (d.map fun kv => if kv.1 = h then (kv.1, kv.2 ++ [p]) else kv) h =
      some (b ++ [p]) := by
  induction d with
  | nil => cases hf
  | cons kv rest ih =>
    rw [dictFind_cons] at hf
    rw [List.map_cons]
    by_cases hk : kv.1 = h
    · rw [if_pos hk] at hf
      injection hf with hf
      subst hf
      rw [if_pos hk, dictFind_cons, if_pos hk]
    · rw [if_neg hk] at hf
      rw [if_neg hk, dictFind_cons, if_neg hk]
      exact ih hf

/-- Source lines 59-62 as one statement: after recording `(p, h)`, the bucket
stored for digest `h` is the previous bucket (empty when absent) with `p`
appended at the end. -/
theorem dictFind_dictInsert (d : List (K × Bucket)) (h : K) (p : FilePath) :
    dictFind (dictInsert d h p) h = some (((dictFind d h).getD []) ++ [p]) := by
  cases hf : dictFind d h with
  | some b =>
    rw [dictInsert_found d h p b hf, dictFind_map_update d h p b hf]
    rfl
  | none =>
    rw [dictInsert_new d h p hf, dictFind_append_of_none d _ h hf, dictFind_cons,
      if_pos rfl]
    rfl

theorem mem_readablePathsWithContent {c : Content} {p : FilePath}
    {cands : List Candidate} :
    p ∈ readablePathsWithContent c cands ↔
      ∃ x, x ∈ cands ∧ x.readable = true ∧ x.content = c ∧ x.path = p := by
  unfold readablePathsWithContent
  rw [List.mem_filterMap]
  constructor
  · rintro ⟨x, hx, hxe⟩
    by_cases hc : x.readable = true ∧ x.content = c
    · rw [if_pos hc] at hxe
      exact ⟨x, hx, hc.1, hc.2, Option.some.inj hxe⟩
    · rw [if_neg hc] at hxe
      cases hxe
  · rintro ⟨x, hx, h1, h2, h3⟩
    exact ⟨x, hx, by rw [if_pos ⟨h1, h2⟩, h3]⟩

theorem bucketOf_ne_nil (h : K) (cands : List Candidate)
    (hh : h ∈ scanDigests hash cands) : bucketOf hash h cands ≠ [] := by
  obtain ⟨x, hx, hr, hd⟩ := (mem_scanDigests hash h cands).mp hh
  intro hnil
  have hmem : x.path ∈ bucketOf hash h cands :=
    (mem_bucketOf hash).mpr ⟨x, hx, hr, hd, rfl⟩
  rw [hnil] at hmem
  cases hmem

theorem nodup_specGroups (cands : List Candidate)
    (hn : (cands.map Candidate.path).Nodup) : (specGroups hash cands).Nodup := by
  unfold specGroups
  apply List.Nodup.filter
  apply List.pairwise_map.mpr
  apply List.Pairwise.imp_of_mem ?_ (nodup_firstInsertionKeys (scanDigests hash cands))
  intro h1 h2 hm1 hm2 hne heq
  have hd1 : h1 ∈ scanDigests hash cands := (mem_firstInsertionKeys _ _).mp hm1
  obtain ⟨p, hp⟩ := List.exists_mem_of_ne_nil _ (bucketOf_ne_nil hash h1 cands hd1)
  exact bucketOf_disjoint hash hn hne hp (heq ▸ hp)

/-- Every member of every emitted group is the path of a readable candidate. -/
theorem candidate_of_mem_group {g : Bucket} {p : FilePath} {cands : List Candidate}
    (hg : g ∈ specGroups hash cands) (hp : p ∈ g) :
    ∃ x, x ∈ cands ∧ x.readable = true ∧ x.path = p := by
  obtain ⟨h, hh, rfl, hlen⟩ := (mem_specGroups hash).mp hg
  obtain ⟨x, hx, hr, hd, hpp⟩ := (mem_bucketOf hash).mp hp
  exact ⟨x, hx, hr, hpp⟩

end MoreLemmas

/-! ## The pathlib suffix of dotfile-like names -/

theorem afterLastDot_eq_none {cs : List Char} (h : '.' ∉ cs) :
    afterLastDot cs = none := by
  induction cs with
  | nil => rfl
  | cons c rest ih =>
    rw [List.mem_cons, not_or] at h
    rw [show afterLastDot (c :: rest) =
        (match afterLastDot rest with
          | some s => some s
          | none => if c = '.' then some rest else none) from rfl,
      ih h.2]
    exact if_neg fun hc => h.1 hc.symm

theorem suffixChars_leading_dot {cs : List Char} (h : '.' ∉ cs) :
    suffixChars ('.' :: cs) = [] := by
  unfold suffixChars
  rw [show afterLastDot ('.' :: cs) = some cs from by
    rw [show afterLastDot ('.' :: cs) =
        (match afterLastDot cs with
          | some s => some s
          | none => if ('.' : Char) = '.' then some cs else none) from rfl,
      afterLastDot_eq_none h]
    simp]
  simp

theorem count_eq_one_of_mem_nodup {A : Type} [BEq A] [LawfulBEq A] {a : A}
    {l : List A} (hd : l.Nodup) (ha : a ∈ l) : l.count a = 1 := by
  induction l with
  | nil => cases ha
  | cons b rest ih =>
    rw [List.nodup_cons] at hd
    rw [List.count_cons]
    rcases List.mem_cons.mp ha with h | h
    · subst h
      rw [List.count_eq_zero.mpr hd.1, if_pos (beq_self_eq_true a)]
    · have hab : a ≠ b := by
        intro hab
        subst hab
        exact hd.1 h
      rw [ih hd.2 h, if_neg (by simp [Ne.symm hab])]

/-! ## The claims -/

/-- C1: for every well-formed filesystem state, every set of at least two
readable candidate files with byte-identical content is emitted as exactly one
duplicate group containing exactly those files (in discovery order), and two
readable files with distinct content never share a group — under the
collision-freedom assumption on the digest function. -/
theorem C1_identical_content_grouped {K : Type} [DecidableEq K]
    (hash : Content → K) (hinj : Function.Injective hash)
    (es : List (String × FSTree)) (hwf : wfT (FSTree.dir es) = true)
    (r : ScanResult)
    (hr : find_duplicates hash (some (FSTree.dir es)) = Except.ok r) :
    (∀ c : Content,
        2 ≤ (readablePathsWithContent c (walkT [] (FSTree.dir es))).length →
        readablePathsWithContent c (walkT [] (FSTree.dir es)) ∈ r.groups ∧
        r.groups.count (readablePathsWithContent c (walkT [] (FSTree.dir es))) = 1 ∧
        ∀ g ∈ r.groups,
          (∃ p, p ∈ g ∧ p ∈ readablePathsWithContent c (walkT [] (FSTree.dir es))) →
          g = readablePathsWithContent c (walkT [] (FSTree.dir es))) ∧
      ∀ g ∈ r.groups, ∀ x y : Candidate,
        x ∈ walkT [] (FSTree.dir es) → y ∈ walkT [] (FSTree.dir es) →
        x.readable = true → y.readable = true →
        x.path ∈ g → y.path ∈ g → x.content = y.content := by
  rw [find_duplicates_dir] at hr
  injection hr with hr
  subst hr
  dsimp only
  have hnd := nodup_walkT_paths (FSTree.dir es) [] hwf
  constructor
  · intro c hN
    have hSb : readablePathsWithContent c (walkT [] (FSTree.dir es)) =
        bucketOf hash (hexdigestOf hash c) (walkT [] (FSTree.dir es)) :=
      readablePathsWithContent_eq_bucketOf hash hinj
    have hne : readablePathsWithContent c (walkT [] (FSTree.dir es)) ≠ [] := by
      intro hnil
      rw [hnil] at hN
      simp at hN
    obtain ⟨p0, hp0⟩ := List.exists_mem_of_ne_nil _ hne
    obtain ⟨x0, hx0, hr0, hc0, hpp0⟩ := mem_readablePathsWithContent.mp hp0
    have hd0 : hexdigestOf hash c ∈ scanDigests hash (walkT [] (FSTree.dir es)) :=
      (mem_scanDigests hash _ _).mpr ⟨x0, hx0, hr0, by rw [hc0]⟩
    have hh : hexdigestOf hash c ∈
        firstInsertionKeys (scanDigests hash (walkT [] (FSTree.dir es))) :=
      (mem_firstInsertionKeys _ _).mpr hd0
    have hmemG : readablePathsWithContent c (walkT [] (FSTree.dir es)) ∈
        specGroups hash (walkT [] (FSTree.dir es)) :=
      (mem_specGroups hash).mpr ⟨hexdigestOf hash c, hh, hSb, by omega⟩
    refine ⟨hmemG, count_eq_one_of_mem_nodup (nodup_specGroups hash _ hnd) hmemG, ?_⟩
    intro g hg ⟨p, hpg, hpS⟩
    obtain ⟨h2, hh2, rfl, hlen2⟩ := (mem_specGroups hash).mp hg
    have hEq : h2 = hexdigestOf hash c := by
      by_contra hne2
      rw [hSb] at hpS
      exact bucketOf_disjoint hash hnd hne2 hpg hpS
    rw [hEq, ← hSb]
  · intro g hg x y hx hy hxr hyr hxg hyg
    obtain ⟨h2, hh2, rfl, hlen2⟩ := (mem_specGroups hash).mp hg
    obtain ⟨x2, hx2, hxr2, hxd2, hxp2⟩ := (mem_bucketOf hash).mp hxg
    obtain ⟨y2, hy2, hyr2, hyd2, hyp2⟩ := (mem_bucketOf hash).mp hyg
    have hxx : x2 = x := List.inj_on_of_nodup_map hnd hx2 hx hxp2
    have hyy : y2 = y := List.inj_on_of_nodup_map hnd hy2 hy hyp2
    subst hxx
    subst hyy
    rw [hexdigestOf_eq] at hxd2 hyd2
    exact hinj (hxd2.trans hyd2.symm)

/-- Witness for C1 on the sample tree with the identity digest: the two
byte-identical readable images form a group, and the theorem derives the
content equality of two grouped files. -/
theorem C1_identical_content_grouped_witness :
    readablePathsWithContent [1] (walkT [] (FSTree.dir sampleTree)) ∈
        (⟨[[["a.jpg"], ["sub", "b.png"]]], [["bad.png"]]⟩ : ScanResult).groups ∧
      (⟨["a.jpg"], [1], true⟩ : Candidate).content =
        (⟨["sub", "b.png"], [1], true⟩ : Candidate).content := by
  have thm := C1_identical_content_grouped (fun c : Content => c)
    (fun a b h => h) sampleTree (by decide)
    ⟨[[["a.jpg"], ["sub", "b.png"]]], [["bad.png"]]⟩ (by rfl)
  exact ⟨(thm.1 [1] (by decide)).1,
    thm.2 [["a.jpg"], ["sub", "b.png"]] (by decide)
      ⟨["a.jpg"], [1], true⟩ ⟨["sub", "b.png"], [1], true⟩
      (by decide) (by decide) (by decide) (by decide) (by decide) (by decide)⟩

/-- C2: the scan fails with the invalid-root error exactly when the root does
not exist or is not a directory.  The check is the first statement of
`find_duplicates` (source lines 44-45) and the model returns the error from
the shape of the root alone, before the traversal is even mentioned, so no
traversal work is performed on such a call. -/
theorem C2_invalid_root {K : Type} [DecidableEq K] (hash : Content → K)
    (target : Option FSTree) :
    find_duplicates hash target = Except.error ScanError.invalidRoot ↔
      is_dir target = false := by
  constructor
  · intro h
    cases target with
    | none => rfl
    | some t =>
      cases t with
      | file c ok => rfl
      | dir es =>
        rw [find_duplicates_dir] at h
        cases h
  · intro h
    exact find_duplicates_not_dir hash target h

/-- C3: the scan output carries one error record per candidate whose open or
read fails, in discovery order; such a file is excluded from every group,
appears exactly once in the error sequence (for a well-formed tree), and the
scan still returns a full result. -/
theorem C3_unreadable_reported {K : Type} [DecidableEq K] (hash : Content → K)
    (es : List (String × FSTree)) (hwf : wfT (FSTree.dir es) = true)
    (r : ScanResult)
    (hr : find_duplicates hash (some (FSTree.dir es)) = Except.ok r)
    (x : Candidate) (hx : x ∈ walkT [] (FSTree.dir es))
    (hfail : x.readable = false) :
    r.errors = errorPaths (walkT [] (FSTree.dir es)) ∧
      r.errors.count x.path = 1 ∧
      ∀ g ∈ r.groups, x.path ∉ g := by
  rw [find_duplicates_dir] at hr
  injection hr with hr
  subst hr
  dsimp only
  have hnd := nodup_walkT_paths (FSTree.dir es) [] hwf
  refine ⟨rfl, ?_, ?_⟩
  · exact count_eq_one_of_mem_nodup (nodup_errorPaths hnd)
      (mem_errorPaths.mpr ⟨x, hx, hfail, rfl⟩)
  · intro g hg hpg
    obtain ⟨y, hy, hyr, hyp⟩ := candidate_of_mem_group hash hg hpg
    have hyx : y = x := List.inj_on_of_nodup_map hnd hy hx hyp
    subst hyx
    rw [hfail] at hyr
    cases hyr

/-- Witness for C3 on the sample tree: the unreadable `bad.png` appears once
in the error sequence and in no group. -/
theorem C3_unreadable_reported_witness :
    (⟨[[["a.jpg"], ["sub", "b.png"]]], [["bad.png"]]⟩ : ScanResult).errors =
        errorPaths (walkT [] (FSTree.dir sampleTree)) ∧
      (⟨[[["a.jpg"], ["sub", "b.png"]]], [["bad.png"]]⟩ : ScanResult).errors.count
        (⟨["bad.png"], [9], false⟩ : Candidate).path = 1 ∧
      ∀ g ∈ (⟨[[["a.jpg"], ["sub", "b.png"]]], [["bad.png"]]⟩ : ScanResult).groups,
        (⟨["bad.png"], [9], false⟩ : Candidate).path ∉ g :=
  C3_unreadable_reported (fun c : Content => c) sampleTree (by decide)
    ⟨[[["a.jpg"], ["sub", "b.png"]]], [["bad.png"]]⟩ (by rfl)
    ⟨["bad.png"], [9], false⟩ (by decide) (by decide)

/-- C4: every emitted duplicate group has at least two members, and every
size-one bucket of the accumulated dictionary is absent from the output. -/
theorem C4_min_group_size {K : Type} [DecidableEq K] (hash : Content → K)
    (es : List (String × FSTree)) (r : ScanResult)
    (hr : find_duplicates hash (some (FSTree.dir es)) = Except.ok r) :
    (∀ g ∈ r.groups, 2 ≤ g.length) ∧
      ∀ b ∈ (scanLoop hash (walkT [] (FSTree.dir es)) ([], [])).1.map Prod.snd,
        b.length ≤ 1 → b ∉ r.groups := by
  rw [find_duplicates_dir] at hr
  injection hr with hr
  subst hr
  dsimp only
  have h2le : ∀ g ∈ specGroups hash (walkT [] (FSTree.dir es)), 2 ≤ g.length := by
    intro g hg
    obtain ⟨h, hh, rfl, hlen⟩ := (mem_specGroups hash).mp hg
    omega
  exact ⟨h2le, fun b hb hble hbg => absurd (h2le b hbg) (by omega)⟩

/-- Witness for C4 on the sample tree. -/
theorem C4_min_group_size_witness :
    (∀ g ∈ (⟨[[["a.jpg"], ["sub", "b.png"]]], [["bad.png"]]⟩ : ScanResult).groups,
        2 ≤ g.length) ∧
      ∀ b ∈ (scanLoop (fun c : Content => c) (walkT [] (FSTree.dir sampleTree))
          ([], [])).1.map Prod.snd,
        b.length ≤ 1 →
        b ∉ (⟨[[["a.jpg"], ["sub", "b.png"]]], [["bad.png"]]⟩ : ScanResult).groups :=
  C4_min_group_size (fun c : Content => c) sampleTree
    ⟨[[["a.jpg"], ["sub", "b.png"]]], [["bad.png"]]⟩ (by rfl)

/-- C5: the traversal yields exactly the regular files of the subtree whose
name's lowercased `pathlib` suffix is in the supported set (never a
directory, at unbounded depth), and every path in every emitted group is such
a file — so an unsupported-extension file appears in neither, whatever its
content. -/
theorem C5_traversal_filter {K : Type} [DecidableEq K] (hash : Content → K) :
    (∀ (t : FSTree) (base : FilePath) (x : Candidate),
        x ∈ walkT base t ↔
          ∃ ds n, x.path = base ++ ds ++ [n] ∧
            HasFile t ds n x.content x.readable ∧ supportedName n = true) ∧
      ∀ (es : List (String × FSTree)) (r : ScanResult),
        find_duplicates hash (some (FSTree.dir es)) = Except.ok r →
        ∀ g ∈ r.groups, ∀ p ∈ g, ∃ ds n c,
          p = ds ++ [n] ∧ HasFile (FSTree.dir es) ds n c true ∧
          supportedName n = true := by
  constructor
  · exact mem_walkT
  · intro es r hr g hg p hp
    rw [find_duplicates_dir] at hr
    injection hr with hr
    subst hr
    obtain ⟨h2, hh2, rfl, hlen2⟩ := (mem_specGroups hash).mp hg
    obtain ⟨x, hx, hxr, hxd, hxp⟩ := (mem_bucketOf hash).mp hp
    obtain ⟨ds, n, hpath, hf, hs⟩ := (mem_walkT _ _ _).mp hx
    rw [List.nil_append] at hpath
    refine ⟨ds, n, x.content, by rw [← hxp, hpath], ?_, hs⟩
    rw [← hxr]
    exact hf

/-- Witness for C5: the nested duplicate of the sample tree is certified by
the theorem to be a supported regular file of the subtree. -/
theorem C5_traversal_filter_witness :
    ∃ ds n c, (["sub", "b.png"] : FilePath) = ds ++ [n] ∧
      HasFile (FSTree.dir sampleTree) ds n c true ∧ supportedName n = true :=
  (C5_traversal_filter (fun c : Content => c)).2 sampleTree
    ⟨[[["a.jpg"], ["sub", "b.png"]]], [["bad.png"]]⟩ (by rfl)
    [["a.jpg"], ["sub", "b.png"]] (by decide) (["sub", "b.png"]) (by decide)

/-- C6: the digest pipeline reads 65536-byte chunks until end of file and
absorbs them in order, so the resulting digest is the hash of the whole
content; and for any positive chunk size the chunks concatenate back to the
content, so the digest does not depend on the chunking. -/
theorem C6_chunked_digest {K : Type} (hash : Content → K) (content : Content) :
    hexdigestOf hash content = hash content ∧
      ∀ n, 0 < n → (readChunks n content).flatten = content :=
  ⟨hexdigestOf_eq hash content, fun n hn => flatten_readChunks n hn content⟩

/-- Witness for C6 at a concrete content and chunk size. -/
theorem C6_chunked_digest_witness :
    hexdigestOf (fun c : Content => c) [1, 2, 3] = [1, 2, 3] ∧
      (readChunks 2 [1, 2, 3]).flatten = [1, 2, 3] :=
  ⟨(C6_chunked_digest (fun c : Content => c) [1, 2, 3]).1,
    (C6_chunked_digest (fun c : Content => c) [1, 2, 3]).2 2 (by decide)⟩

/-- C7: `record` appends the path to the digest's bucket, creating the bucket
when absent, and the emitted groups are the buckets of the distinct digests in
first-insertion order, each listing its paths in discovery order and filtered
to size at least two (`specGroups`). -/
theorem C7_insertion_order {K : Type} [DecidableEq K] (hash : Content → K) :
    (∀ (d : List (K × Bucket)) (h : K) (p : FilePath),
        dictFind (dictInsert d h p) h = some (((dictFind d h).getD []) ++ [p])) ∧
      ∀ (es : List (String × FSTree)) (r : ScanResult),
        find_duplicates hash (some (FSTree.dir es)) = Except.ok r →
        r.groups = specGroups hash (walkT [] (FSTree.dir es)) := by
  refine ⟨dictFind_dictInsert, ?_⟩
  intro es r hr
  rw [find_duplicates_dir] at hr
  injection hr with hr
  rw [← hr]

/-- Witness for C7: the record operation and the group ordering at concrete
inputs. -/
theorem C7_insertion_order_witness :
    dictFind (dictInsert ([] : List (Content × Bucket)) [0] ["p"]) [0] =
        some (((dictFind ([] : List (Content × Bucket)) [0]).getD []) ++ [["p"]]) ∧
      (⟨[[["a.jpg"], ["sub", "b.png"]]], [["bad.png"]]⟩ : ScanResult).groups =
        specGroups (fun c : Content => c) (walkT [] (FSTree.dir sampleTree)) :=
  ⟨(C7_insertion_order (fun c : Content => c)).1 [] [0] ["p"],
    (C7_insertion_order (fun c : Content => c)).2 sampleTree
      ⟨[[["a.jpg"], ["sub", "b.png"]]], [["bad.png"]]⟩ (by rfl)⟩

/-- C8: the scan result is a deterministic function of the filesystem state
and root path: two runs on the unmodified tree return identical results, in
particular the same groups. -/
theorem C8_deterministic {K : Type} [DecidableEq K] (hash : Content → K)
    (target : Option FSTree) (r1 r2 : ScanResult)
    (h1 : find_duplicates hash target = Except.ok r1)
    (h2 : find_duplicates hash target = Except.ok r2) : r1 = r2 := by
  rw [h1] at h2
  injection h2

/-- Witness for C8 on the sample tree. -/
theorem C8_deterministic_witness :
    (⟨[[["a.jpg"], ["sub", "b.png"]]], [["bad.png"]]⟩ : ScanResult) =
      ⟨[[["a.jpg"], ["sub", "b.png"]]], [["bad.png"]]⟩ :=
  C8_deterministic (fun c : Content => c) (some (FSTree.dir sampleTree)) _ _
    (by rfl) (by rfl)

/-- C9: a file name that is a single leading dot followed by dot-free text
(for example a file literally named `.jpg`) has an empty `pathlib` suffix, is
not a supported name, and therefore never appears in the traversal output nor
in any duplicate group, even though the name ends in a supported extension. -/
theorem C9_leading_dot_excluded (name : String) (cs : List Char)
    (hshape : name.toList = '.' :: cs) (hnodot : '.' ∉ cs) :
    pathSuffix name = "" ∧ supportedName name = false ∧
      (∀ (t : FSTree) (base : FilePath) (x : Candidate),
        x.path.getLast? = some name → x ∉ walkT base t) ∧
      ∀ {K : Type} [DecidableEq K] (hash : Content → K)
        (es : List (String × FSTree)) (r : ScanResult),
        find_duplicates hash (some (FSTree.dir es)) = Except.ok r →
        ∀ g ∈ r.groups, ∀ ds : List String, (ds ++ [name]) ∉ g := by
  have hsfx : pathSuffix name = "" := by
    unfold pathSuffix
    rw [hshape, suffixChars_leading_dot hnodot]
  have hsup : supportedName name = false := by
    unfold supportedName
    rw [hsfx]
    decide
  have hwalk : ∀ (t : FSTree) (base : FilePath) (x : Candidate),
      x.path.getLast? = some name → x ∉ walkT base t := by
    intro t base x hlast hx
    obtain ⟨ds, n, hpath, hf, hs⟩ := (mem_walkT _ _ _).mp hx
    rw [hpath, List.getLast?_concat] at hlast
    injection hlast with hlast
    rw [hlast] at hs
    rw [hsup] at hs
    cases hs
  refine ⟨hsfx, hsup, hwalk, ?_⟩
  intro K inst hash es r hr g hg ds hpg
  rw [find_duplicates_dir] at hr
  injection hr with hr
  subst hr
  obtain ⟨x, hx, hxr, hxp⟩ := candidate_of_mem_group hash hg hpg
  exact hwalk (FSTree.dir es) [] x (by rw [hxp, List.getLast?_concat]) hx

/-- Witness for C9 with the literal name `.jpg` on the sample tree. -/
theorem C9_leading_dot_excluded_witness :
    pathSuffix (".jpg") = "" ∧ supportedName (".jpg") = false ∧
      (⟨["sub", ".jpg"], [1], true⟩ : Candidate) ∉ walkT [] (FSTree.dir sampleTree) := by
  have thm := C9_leading_dot_excluded (".jpg") ['j', 'p', 'g'] (by decide) (by decide)
  exact ⟨thm.1, thm.2.1, thm.2.2.1 (FSTree.dir sampleTree) [] _ (by decide)⟩

/-- C10: when the traversal yields each path at most once, the emitted groups
are pairwise disjoint and no group repeats a path, because every yielded path
lands in exactly one digest bucket and each bucket is emitted at most once. -/
theorem C10_groups_disjoint {K : Type} [DecidableEq K] (hash : Content → K)
    (es : List (String × FSTree))
    (hnodup : ((walkT [] (FSTree.dir es)).map Candidate.path).Nodup)
    (r : ScanResult)
    (hr : find_duplicates hash (some (FSTree.dir es)) = Except.ok r) :
    r.groups.Pairwise (fun g1 g2 => ∀ p, p ∈ g1 → p ∉ g2) ∧
      ∀ g ∈ r.groups, g.Nodup := by
  rw [find_duplicates_dir] at hr
  injection hr with hr
  subst hr
  dsimp only
  constructor
  · unfold specGroups
    apply List.Pairwise.filter
    apply List.pairwise_map.mpr
    apply List.Pairwise.imp_of_mem ?_
      (nodup_firstInsertionKeys (scanDigests hash (walkT [] (FSTree.dir es))))
    intro h1 h2 hm1 hm2 hne p hp1 hp2
    exact bucketOf_disjoint hash hnodup hne hp1 hp2
  · intro g hg
    obtain ⟨h, hh, rfl, hlen⟩ := (mem_specGroups hash).mp hg
    exact nodup_bucketOf hash hnodup

/-- Witness for C10 on the sample tree. -/
theorem C10_groups_disjoint_witness :
    (⟨[[["a.jpg"], ["sub", "b.png"]]], [["bad.png"]]⟩ : ScanResult).groups.Pairwise
        (fun g1 g2 => ∀ p, p ∈ g1 → p ∉ g2) ∧
      ∀ g ∈ (⟨[[["a.jpg"], ["sub", "b.png"]]], [["bad.png"]]⟩ : ScanResult).groups,
        g.Nodup :=
  C10_groups_disjoint (fun c : Content => c) sampleTree (by decide)
    ⟨[[["a.jpg"], ["sub", "b.png"]]], [["bad.png"]]⟩ (by rfl)

end DupFinder
